import Mathlib

/-
Verification development for the SPC (Statistical Process Control) analysis
engine in `src/modules/quality/spc_analysis.py` of the ai-erp-quality-module
repository.

Embedding conventions:
- Python/numpy floats are modelled as rationals (ℚ).  All arithmetic in the
  source is +, -, *, /, abs, min, max and square roots, so every operation
  except sqrt is exact over ℚ.
- np.sqrt is modelled by `ratSqrt`, a computable square root on ℚ that is
  exact on perfect-square rationals and always nonnegative.  Every general
  theorem below depends only on nonnegativity of the square root (or on its
  exact value at a perfect square in concrete evaluations), never on its
  value at a non-square.
- Division by zero follows the Lean convention x / 0 = 0.  The Python code
  never raises on division by a zero numpy float (it silently produces
  inf/NaN); places where this matters are discussed at the relevant
  theorems.
- pandas Series are modelled as Lean lists; positional slicing
  data[a:b] becomes (data.drop a).take (b - a).  Elementwise division of two
  series (p-chart) is modelled by zipWith on equal-length lists, which is
  the documented call contract (len(defects) == len(sample_sizes)).
- Python list building by repeated append in a loop is modelled by
  filterMap / scanl over the same index ranges; range(n - k) for possibly
  negative n - k coincides with Lean's truncated Nat subtraction List.range
  (n - k), both being empty exactly when n ≤ k.
-/

namespace SPC

/-- Model of enum `ControlChartType` in spc_analysis.py. -/
inductive ControlChartType
  | XBAR
  | R
  | P
  | CUSUM
deriving DecidableEq

/-- The `.value` string of each `ControlChartType` member. -/
def ControlChartType.value : ControlChartType → String
  | .XBAR => "X-bar"
  | .R => "R"
  | .P => "p"
  | .CUSUM => "CUSUM"

/-- Model of enum `ViolationType` in spc_analysis.py. -/
inductive ViolationType
  | BEYOND_3SIGMA
  | TWO_OF_THREE_BEYOND_2SIGMA
  | FOUR_OF_FIVE_BEYOND_1SIGMA
  | EIGHT_CONSECUTIVE_SAME_SIDE
  | SIX_CONSECUTIVE_TREND
  | FIFTEEN_CONSECUTIVE_NEAR_CENTER
deriving DecidableEq

/-- The `.value` string of each `ViolationType` member. -/
def ViolationType.value : ViolationType → String
  | .BEYOND_3SIGMA => "Point beyond 3σ"
  | .TWO_OF_THREE_BEYOND_2SIGMA => "2 out of 3 beyond 2σ"
  | .FOUR_OF_FIVE_BEYOND_1SIGMA => "4 out of 5 beyond 1σ"
  | .EIGHT_CONSECUTIVE_SAME_SIDE => "8 consecutive points on same side of center"
  | .SIX_CONSECUTIVE_TREND => "6 consecutive increasing or decreasing"
  | .FIFTEEN_CONSECUTIVE_NEAR_CENTER => "15 consecutive within 1σ"

/-- Model of the dict returned by `_calculate_capability`. -/
structure Capability where
  Cp : ℚ
  Cpk : ℚ
  Pp : ℚ
  Ppk : ℚ
deriving DecidableEq

/-- Model of dataclass `SPCResult` (fields in source order; the
`__post_init__` defaulting of the two list fields to `[]` is inlined at each
construction site, as the source always either passes them or leaves the
default). -/
structure SPCResult where
  chart_type : String
  center_line : ℚ
  ucl : ℚ
  lcl : ℚ
  usl : Option ℚ
  lsl : Option ℚ
  out_of_control_points : List ℕ
  violations : List (ℕ × String)
  process_capability : Option Capability
deriving DecidableEq

/-- Model of the dict returned by `analyze_cusum`
(keys c_plus, c_minus, h, out_of_control_points). -/
structure CusumResult where
  c_plus : List ℚ
  c_minus : List ℚ
  h : ℚ
  out_of_control_points : List ℕ
deriving DecidableEq

/-- np.mean / pandas Series.mean: sum divided by length.  numpy returns NaN
on an empty input; over ℚ this is 0 / 0 = 0 — all theorems below either
assume nonempty input or are unaffected. -/
def mean (l : List ℚ) : ℚ := l.sum / l.length

/-- np.max on a list (the source only applies it to nonempty subgroups;
numpy raises on empty input, here the empty case returns 0). -/
def npMax : List ℚ → ℚ
  | [] => 0
  | x :: xs => xs.foldl max x

/-- np.min on a list (same conventions as `npMax`). -/
def npMin : List ℚ → ℚ
  | [] => 0
  | x :: xs => xs.foldl min x

/-- Computable model of np.sqrt on ℚ: exact on perfect-square rationals
(e.g. 4, 9, 1/4, 0) and always nonnegative; on other inputs it returns a
rational approximation.  No general theorem below depends on its value,
only on its sign. -/
def ratSqrt (q : ℚ) : ℚ := (Nat.sqrt q.num.toNat : ℚ) / (Nat.sqrt q.den : ℚ)

/-- pandas Series.std with its default ddof = 1: the sample variance
Σ (x - mean)² / (n - 1).  For n ≤ 1 pandas yields NaN; over ℚ the truncated
subtraction gives division by zero, hence 0. -/
def sampleVar (l : List ℚ) : ℚ :=
  ((l.map (fun x => (x - mean l) ^ 2)).sum) / ((l.length - 1 : ℕ) : ℚ)

/-- pandas Series.std: square root of the ddof = 1 sample variance. -/
def std (l : List ℚ) : ℚ := ratSqrt (sampleVar l)

/-- The d2 lookup `d2_values.get(subgroup_size, 2.326)` in analyze_xbar. -/
def d2Table : ℕ → ℚ
  | 2 => 1.128
  | 3 => 1.693
  | 4 => 2.059
  | 5 => 2.326
  | 6 => 2.534
  | 7 => 2.704
  | 8 => 2.847
  | 9 => 2.970
  | 10 => 3.078
  | _ => 2.326

/-- The D3 lookup `d3_values.get(subgroup_size, 0)` in analyze_r_chart. -/
def d3Table : ℕ → ℚ
  | 2 => 0
  | 3 => 0
  | 4 => 0
  | 5 => 0
  | 6 => 0
  | 7 => 0.076
  | 8 => 0.136
  | 9 => 0.184
  | 10 => 0.223
  | _ => 0

/-- The D4 lookup `d4_values.get(subgroup_size, 2.114)` in analyze_r_chart. -/
def d4Table : ℕ → ℚ
  | 2 => 3.267
  | 3 => 2.574
  | 4 => 2.282
  | 5 => 2.114
  | 6 => 2.004
  | 7 => 1.924
  | 8 => 1.864
  | 9 => 1.816
  | 10 => 1.777
  | _ => 2.114

/-- The subgroup partition `[data[i*size:(i+1)*size] for i in
range(len(data) // size)]` shared by analyze_xbar and analyze_r_chart. -/
def subgroups (data : List ℚ) (m : ℕ) : List (List ℚ) :=
  (List.range (data.length / m)).map (fun i => (data.drop (i * m)).take m)

/-- `subgroup_means = [np.mean(sg) for sg in subgroups]` in analyze_xbar. -/
def subgroupMeans (data : List ℚ) (m : ℕ) : List ℚ :=
  (subgroups data m).map mean

/-- `ranges = [np.max(sg) - np.min(sg) for sg in subgroups]` in
analyze_xbar and analyze_r_chart. -/
def subgroupRanges (data : List ℚ) (m : ℕ) : List ℚ :=
  (subgroups data m).map (fun sg => npMax sg - npMin sg)

/-- Rule 1 loop of `_apply_western_electric_rules`: every enumerated point
strictly outside the control limits. -/
def ruleOneViolations (data : List ℚ) (ucl lcl : ℚ) : List (ℕ × String) :=
  data.enum.filterMap (fun p =>
    if p.2 > ucl ∨ p.2 < lcl then some (p.1, ViolationType.BEYOND_3SIGMA.value) else none)

/-- Rule 2 loop: every window data[i:i+3] with at least 2 points with
|p - center| > 2σ flags index i + 2. -/
def ruleTwoViolations (data : List ℚ) (center_line sigma : ℚ) : List (ℕ × String) :=
  (List.range (data.length - 2)).filterMap (fun i =>
    if 2 ≤ ((data.drop i).take 3).countP (fun p => decide (|p - center_line| > 2 * sigma)) then
      some (i + 2, ViolationType.TWO_OF_THREE_BEYOND_2SIGMA.value)
    else none)

/-- Rule 3 loop: every window data[i:i+5] with at least 4 points with
|p - center| > σ flags index i + 4. -/
def ruleThreeViolations (data : List ℚ) (center_line sigma : ℚ) : List (ℕ × String) :=
  (List.range (data.length - 4)).filterMap (fun i =>
    if 4 ≤ ((data.drop i).take 5).countP (fun p => decide (|p - center_line| > sigma)) then
      some (i + 4, ViolationType.FOUR_OF_FIVE_BEYOND_1SIGMA.value)
    else none)

/-- Rule 4 loop: every window data[i:i+8] entirely strictly above or
entirely strictly below the center line flags index i + 7. -/
def ruleFourViolations (data : List ℚ) (center_line : ℚ) : List (ℕ × String) :=
  (List.range (data.length - 7)).filterMap (fun i =>
    let points := (data.drop i).take 8
    if points.all (fun p => decide (p > center_line)) || points.all (fun p => decide (p < center_line)) then
      some (i + 7, ViolationType.EIGHT_CONSECUTIVE_SAME_SIDE.value)
    else none)

/-- Model of `_apply_western_electric_rules`: the four rule loops run in
order, each appending to the shared `violations` list, so the result is
their concatenation. -/
def apply_western_electric_rules (data : List ℚ) (center_line ucl lcl : ℚ) :
    List (ℕ × String) :=
  let sigma := (ucl - center_line) / 3
  ruleOneViolations data ucl lcl ++ ruleTwoViolations data center_line sigma ++
    ruleThreeViolations data center_line sigma ++ ruleFourViolations data center_line

/-- Model of `_calculate_capability` (mean and ddof = 1 std of the raw
data; the source computes Pp/Ppk by the same formulas as Cp/Cpk). -/
def calculate_capability (data : List ℚ) (usl lsl : ℚ) : Capability :=
  let m := mean data
  let sigma := std data
  { Cp := (usl - lsl) / (6 * sigma)
    Cpk := min ((usl - m) / (3 * sigma)) ((m - lsl) / (3 * sigma))
    Pp := (usl - lsl) / (6 * sigma)
    Ppk := min ((usl - m) / (3 * sigma)) ((m - lsl) / (3 * sigma)) }

/-- `grand_mean = np.mean(subgroup_means)` in analyze_xbar. -/
def grand_mean (data : List ℚ) (m : ℕ) : ℚ := mean (subgroupMeans data m)

/-- `avg_range = np.mean(ranges)` in analyze_xbar. -/
def avg_range (data : List ℚ) (m : ℕ) : ℚ := mean (subgroupRanges data m)

/-- `sigma_estimate = avg_range / d2` in analyze_xbar. -/
def sigma_estimate (data : List ℚ) (m : ℕ) : ℚ := avg_range data m / d2Table m

/-- `ucl = grand_mean + 3 * (sigma_estimate / np.sqrt(subgroup_size))`. -/
def xbar_ucl (data : List ℚ) (m : ℕ) : ℚ :=
  grand_mean data m + 3 * (sigma_estimate data m / ratSqrt m)

/-- `lcl = grand_mean - 3 * (sigma_estimate / np.sqrt(subgroup_size))`. -/
def xbar_lcl (data : List ℚ) (m : ℕ) : ℚ :=
  grand_mean data m - 3 * (sigma_estimate data m / ratSqrt m)

/-- Model of `SPCAnalyzer.analyze_xbar`. -/
def analyze_xbar (data : List ℚ) (subgroup_size : ℕ) (usl lsl : Option ℚ) : SPCResult :=
  let violations := apply_western_electric_rules (subgroupMeans data subgroup_size)
    (grand_mean data subgroup_size) (xbar_ucl data subgroup_size) (xbar_lcl data subgroup_size)
  { chart_type := ControlChartType.XBAR.value
    center_line := grand_mean data subgroup_size
    ucl := xbar_ucl data subgroup_size
    lcl := xbar_lcl data subgroup_size
    usl := usl
    lsl := lsl
    out_of_control_points := violations.map Prod.fst
    violations := violations
    process_capability :=
      match usl, lsl with
      | some u, some l => some (calculate_capability data u l)
      | _, _ => none }

/-- Model of `SPCAnalyzer.analyze_r_chart`. -/
def analyze_r_chart (data : List ℚ) (subgroup_size : ℕ) : SPCResult :=
  let ranges := subgroupRanges data subgroup_size
  let avgR := mean ranges
  let ucl := d4Table subgroup_size * avgR
  let lcl := d3Table subgroup_size * avgR
  { chart_type := ControlChartType.R.value
    center_line := avgR
    ucl := ucl
    lcl := lcl
    usl := none
    lsl := none
    out_of_control_points :=
      ranges.enum.filterMap (fun p => if p.2 > ucl ∨ p.2 < lcl then some p.1 else none)
    violations := []
    process_capability := none }

/-- Model of `SPCAnalyzer.analyze_p_chart` on the documented call contract
of equal-length inputs (pandas elementwise division becomes zipWith). -/
def analyze_p_chart (defects sample_sizes : List ℚ) : SPCResult :=
  let proportions := List.zipWith (fun d s => d / s) defects sample_sizes
  let p_bar := defects.sum / sample_sizes.sum
  let n_bar := mean sample_sizes
  let ucl := p_bar + 3 * ratSqrt (p_bar * (1 - p_bar) / n_bar)
  let lcl := max 0 (p_bar - 3 * ratSqrt (p_bar * (1 - p_bar) / n_bar))
  { chart_type := ControlChartType.P.value
    center_line := p_bar
    ucl := ucl
    lcl := lcl
    usl := none
    lsl := none
    out_of_control_points :=
      proportions.enum.filterMap (fun p => if p.2 > ucl ∨ p.2 < lcl then some p.1 else none)
    violations := []
    process_capability := none }

/-- Model of `SPCAnalyzer.analyze_cusum`.  The Python loop starts each of
c_plus and c_minus as [0], appends one value per data point using only the
list's own last element, and finally drops the leading 0: exactly
(List.scanl step 0 data).tail for each of the two independent
recurrences. -/
def analyze_cusum (data : List ℚ) (target : Option ℚ) (k h : ℚ) : CusumResult :=
  let t := target.getD (mean data)
  let sigma := std data
  let kAbs := k * sigma
  let hAbs := h * sigma
  let c_plus := (List.scanl (fun acc v => max 0 (acc + (v - t) - kAbs)) 0 data).tail
  let c_minus := (List.scanl (fun acc v => max 0 (acc - (v - t) - kAbs)) 0 data).tail
  { c_plus := c_plus
    c_minus := c_minus
    h := hAbs
    out_of_control_points :=
      (c_plus.zip c_minus).enum.filterMap
        (fun p => if p.2.1 > hAbs ∨ p.2.2 > hAbs then some p.1 else none) }

/-- Spec-side predicate: Rule 1 fires at index i (the point at i is
strictly outside the control limits). -/
def ruleOneAt (data : List ℚ) (ucl lcl : ℚ) (i : ℕ) : Prop :=
  ∃ v, data[i]? = some v ∧ (v > ucl ∨ v < lcl)

/-- Spec-side predicate: Rule 2 fires at index i (i ends a 3-window with at
least 2 points beyond 2σ in absolute distance from the center line). -/
def ruleTwoAt (data : List ℚ) (center_line sigma : ℚ) (i : ℕ) : Prop :=
  ∃ j, j < data.length - 2 ∧ i = j + 2 ∧
    2 ≤ ((data.drop j).take 3).countP (fun p => decide (|p - center_line| > 2 * sigma))

/-- Spec-side predicate: Rule 3 fires at index i (i ends a 5-window with at
least 4 points beyond 1σ). -/
def ruleThreeAt (data : List ℚ) (center_line sigma : ℚ) (i : ℕ) : Prop :=
  ∃ j, j < data.length - 4 ∧ i = j + 4 ∧
    4 ≤ ((data.drop j).take 5).countP (fun p => decide (|p - center_line| > sigma))

/-- Spec-side predicate: Rule 4 fires at index i (i ends an 8-window lying
entirely strictly on one side of the center line). -/
def ruleFourAt (data : List ℚ) (center_line : ℚ) (i : ℕ) : Prop :=
  ∃ j, j < data.length - 7 ∧ i = j + 7 ∧
    (((data.drop j).take 8).all (fun p => decide (p > center_line)) = true ∨
      ((data.drop j).take 8).all (fun p => decide (p < center_line)) = true)

end SPC

namespace SPC

theorem ratSqrt_nonneg (q : ℚ) : 0 ≤ ratSqrt q :=
  div_nonneg (Nat.cast_nonneg _) (Nat.cast_nonneg _)

theorem natSqrt_eval {n k : ℕ} (h1 : k * k ≤ n) (h2 : n < (k + 1) * (k + 1)) :
    Nat.sqrt n = k := by
  have ha : k ≤ Nat.sqrt n := Nat.le_sqrt.mpr h1
  have hb : Nat.sqrt n < k + 1 := Nat.sqrt_lt.mpr h2
  omega

theorem d2Table_pos (n : ℕ) : 0 < d2Table n := by
  unfold d2Table; split <;> norm_num

theorem d3Table_nonneg (n : ℕ) : 0 ≤ d3Table n := by
  unfold d3Table; split <;> norm_num

theorem d3Table_le_one (n : ℕ) : d3Table n ≤ 1 := by
  unfold d3Table; split <;> norm_num

theorem one_le_d4Table (n : ℕ) : 1 ≤ d4Table n := by
  unfold d4Table; split <;> norm_num

theorem mean_nonneg {l : List ℚ} (h : ∀ x ∈ l, 0 ≤ x) : 0 ≤ mean l :=
  div_nonneg (List.sum_nonneg h) (Nat.cast_nonneg _)

theorem mean_const {l : List ℚ} {c : ℚ} (hne : l ≠ []) (h : ∀ x ∈ l, x = c) :
    mean l = c := by
  have hsum : l.sum = l.length • c := List.sum_eq_card_nsmul l c h
  have hlen : (l.length : ℚ) ≠ 0 := by
    have h0 : l.length ≠ 0 := by simpa using (List.length_pos.mpr hne).ne'
    exact_mod_cast h0
  rw [mean, hsum, nsmul_eq_mul]
  exact mul_div_cancel_left₀ c hlen

theorem mean_perm {l l' : List ℚ} (h : l.Perm l') : mean l = mean l' := by
  rw [mean, mean, h.sum_eq, h.length_eq]

theorem le_foldl_max : ∀ (xs : List ℚ) (x : ℚ), x ≤ xs.foldl max x := by
  intro xs
  induction xs with
  | nil => intro x; exact le_refl x
  | cons a t ih => intro x; exact le_trans (le_max_left x a) (ih (max x a))

theorem foldl_min_le : ∀ (xs : List ℚ) (x : ℚ), xs.foldl min x ≤ x := by
  intro xs
  induction xs with
  | nil => intro x; exact le_refl x
  | cons a t ih => intro x; exact le_trans (ih (min x a)) (min_le_left x a)

theorem npMin_le_npMax {l : List ℚ} (h : l ≠ []) : npMin l ≤ npMax l := by
  match l, h with
  | x :: xs, _ =>
    exact le_trans (foldl_min_le xs x) (le_foldl_max xs x)

theorem foldl_max_const {c : ℚ} : ∀ (t : List ℚ), (∀ x ∈ t, x = c) → t.foldl max c = c := by
  intro t
  induction t with
  | nil => intro _; rfl
  | cons a s ih =>
    intro h
    have ha : a = c := h a (List.mem_cons_self a s)
    have : ∀ x ∈ s, x = c := fun x hx => h x (List.mem_cons_of_mem a hx)
    simp only [List.foldl_cons, ha, max_self]
    exact ih this

theorem foldl_min_const {c : ℚ} : ∀ (t : List ℚ), (∀ x ∈ t, x = c) → t.foldl min c = c := by
  intro t
  induction t with
  | nil => intro _; rfl
  | cons a s ih =>
    intro h
    have ha : a = c := h a (List.mem_cons_self a s)
    have : ∀ x ∈ s, x = c := fun x hx => h x (List.mem_cons_of_mem a hx)
    simp only [List.foldl_cons, ha, min_self]
    exact ih this

theorem npMax_const {l : List ℚ} {c : ℚ} (hne : l ≠ []) (h : ∀ x ∈ l, x = c) :
    npMax l = c := by
  match l, hne with
  | x :: xs, _ =>
    have hx : x = c := h x (List.mem_cons_self x xs)
    have hxs : ∀ y ∈ xs, y = c := fun y hy => h y (List.mem_cons_of_mem x hy)
    simpa [npMax, hx] using foldl_max_const xs hxs

theorem npMin_const {l : List ℚ} {c : ℚ} (hne : l ≠ []) (h : ∀ x ∈ l, x = c) :
    npMin l = c := by
  match l, hne with
  | x :: xs, _ =>
    have hx : x = c := h x (List.mem_cons_self x xs)
    have hxs : ∀ y ∈ xs, y = c := fun y hy => h y (List.mem_cons_of_mem x hy)
    simpa [npMin, hx] using foldl_min_const xs hxs

theorem length_of_mem_subgroups {data : List ℚ} {m : ℕ} {sg : List ℚ}
    (h : sg ∈ subgroups data m) : sg.length = m := by
  rcases List.mem_map.mp h with ⟨i, hi, rfl⟩
  have hi' : i < data.length / m := List.mem_range.mp hi
  have hm : 0 < m := by
    rcases Nat.eq_zero_or_pos m with h0 | h0
    · subst h0; simp at hi'
    · exact h0
  have hmul : (i + 1) * m ≤ data.length :=
    (Nat.le_div_iff_mul_le hm).mp (Nat.succ_le_of_lt hi')
  have : m ≤ data.length - i * m := by
    have : i * m + m ≤ data.length := by
      calc i * m + m = (i + 1) * m := by ring
        _ ≤ data.length := hmul
    omega
  simp [List.length_take, List.length_drop]
  omega

theorem mem_of_mem_subgroups {data : List ℚ} {m : ℕ} {sg : List ℚ} {x : ℚ}
    (h : sg ∈ subgroups data m) (hx : x ∈ sg) : x ∈ data := by
  rcases List.mem_map.mp h with ⟨i, _, rfl⟩
  exact List.mem_of_mem_drop (List.mem_of_mem_take hx)

theorem subgroups_nonempty_of_mem {data : List ℚ} {m : ℕ} (hm : 0 < m) {sg : List ℚ}
    (h : sg ∈ subgroups data m) : sg ≠ [] := by
  have := length_of_mem_subgroups h
  intro hnil
  rw [hnil] at this
  simp at this
  omega

theorem mem_enum_filterMap_idx {α : Type} {l : List α} {P : ℕ × α → Prop} [DecidablePred P]
    {i : ℕ} :
    i ∈ l.enum.filterMap (fun p => if P p then some p.1 else none) ↔
      ∃ v, l[i]? = some v ∧ P (i, v) := by
  simp only [List.mem_filterMap, Option.ite_none_right_eq_some, Option.some.injEq]
  constructor
  · rintro ⟨⟨j, v⟩, hmem, hP, rfl⟩
    exact ⟨v, List.mk_mem_enum_iff_getElem?.mp hmem, hP⟩
  · rintro ⟨v, hget, hP⟩
    exact ⟨(i, v), List.mk_mem_enum_iff_getElem?.mpr hget, hP, rfl⟩

theorem mem_map_fst_filterMap_range {n k : ℕ} {s : String} {C : ℕ → Prop} [DecidablePred C]
    {i : ℕ} :
    i ∈ ((List.range n).filterMap (fun j => if C j then some (j + k, s) else none)).map
        Prod.fst ↔ ∃ j, j < n ∧ i = j + k ∧ C j := by
  simp only [List.mem_map, List.mem_filterMap, List.mem_range,
    Option.ite_none_right_eq_some, Option.some.injEq]
  constructor
  · rintro ⟨a, ⟨j, hj, hC, rfl⟩, hfst⟩
    simp only at hfst
    exact ⟨j, hj, hfst.symm, hC⟩
  · rintro ⟨j, hj, rfl, hC⟩
    exact ⟨(j + k, s), ⟨j, hj, hC, rfl⟩, rfl⟩

theorem mem_map_fst_ruleOne {data : List ℚ} {ucl lcl : ℚ} {i : ℕ} :
    i ∈ (ruleOneViolations data ucl lcl).map Prod.fst ↔ ruleOneAt data ucl lcl i := by
  simp only [ruleOneViolations, ruleOneAt, List.mem_map, List.mem_filterMap,
    Option.ite_none_right_eq_some, Option.some.injEq]
  constructor
  · rintro ⟨a, ⟨⟨j, v⟩, hmem, hcond, rfl⟩, hfst⟩
    simp only at hfst
    subst hfst
    exact ⟨v, List.mk_mem_enum_iff_getElem?.mp hmem, hcond⟩
  · rintro ⟨v, hget, hcond⟩
    exact ⟨(i, ViolationType.BEYOND_3SIGMA.value),
      ⟨(i, v), List.mk_mem_enum_iff_getElem?.mpr hget, hcond, rfl⟩, rfl⟩

theorem mem_map_fst_ruleTwo {data : List ℚ} {center_line sigma : ℚ} {i : ℕ} :
    i ∈ (ruleTwoViolations data center_line sigma).map Prod.fst ↔
      ruleTwoAt data center_line sigma i := by
  simpa only [ruleTwoViolations, ruleTwoAt] using mem_map_fst_filterMap_range

theorem mem_map_fst_ruleThree {data : List ℚ} {center_line sigma : ℚ} {i : ℕ} :
    i ∈ (ruleThreeViolations data center_line sigma).map Prod.fst ↔
      ruleThreeAt data center_line sigma i := by
  simpa only [ruleThreeViolations, ruleThreeAt] using mem_map_fst_filterMap_range

theorem mem_map_fst_ruleFour {data : List ℚ} {center_line : ℚ} {i : ℕ} :
    i ∈ (ruleFourViolations data center_line).map Prod.fst ↔
      ruleFourAt data center_line i := by
  have h := mem_map_fst_filterMap_range (n := data.length - 7) (k := 7)
    (s := ViolationType.EIGHT_CONSECUTIVE_SAME_SIDE.value)
    (C := fun j => (((data.drop j).take 8).all (fun p => decide (p > center_line)) ||
      ((data.drop j).take 8).all (fun p => decide (p < center_line))) = true) (i := i)
  simp only [ruleFourViolations, ruleFourAt]
  rw [h]
  simp only [Bool.or_eq_true]

theorem mem_apply_western_electric_rules {data : List ℚ} {center_line ucl lcl : ℚ} {i : ℕ} :
    i ∈ (apply_western_electric_rules data center_line ucl lcl).map Prod.fst ↔
      (ruleOneAt data ucl lcl i ∨ ruleTwoAt data center_line ((ucl - center_line) / 3) i ∨
        ruleThreeAt data center_line ((ucl - center_line) / 3) i ∨
        ruleFourAt data center_line i) := by
  simp only [apply_western_electric_rules, List.map_append, List.mem_append,
    mem_map_fst_ruleOne, mem_map_fst_ruleTwo, mem_map_fst_ruleThree, mem_map_fst_ruleFour]
  tauto

/-- C1 (amended): for every input, `out_of_control_points` of `analyze_xbar`
contains an index exactly when at least one of the four Western Electric
rules fired at that index on the subgroup-mean sequence; it is however NOT
deduplicated — an index flagged by several rules appears once per firing
(see the counterexample theorem). -/
theorem analyze_xbar_oocp_mem_iff (data : List ℚ) (m : ℕ) (usl lsl : Option ℚ) (i : ℕ) :
    i ∈ (analyze_xbar data m usl lsl).out_of_control_points ↔
      (ruleOneAt (subgroupMeans data m) (xbar_ucl data m) (xbar_lcl data m) i ∨
        ruleTwoAt (subgroupMeans data m) (grand_mean data m)
          ((xbar_ucl data m - grand_mean data m) / 3) i ∨
        ruleThreeAt (subgroupMeans data m) (grand_mean data m)
          ((xbar_ucl data m - grand_mean data m) / 3) i ∨
        ruleFourAt (subgroupMeans data m) (grand_mean data m) i) := by
  have h : (analyze_xbar data m usl lsl).out_of_control_points =
      (apply_western_electric_rules (subgroupMeans data m) (grand_mean data m)
        (xbar_ucl data m) (xbar_lcl data m)).map Prod.fst := rfl
  rw [h, mem_apply_western_electric_rules]

/-- C1 counterexample: on data [0, 0, 10, 10, 10, 10] with subgroup size 2,
the subgroup means are [0, 10, 10] and the estimated sigma is 0 (all
subgroup ranges are 0), so index 2 is flagged both by Rule 1 and by Rule 2;
`out_of_control_points` is [0, 1, 2, 2], which contains index 2 twice —
refuting the claim that it never contains an index more than once. -/
theorem analyze_xbar_oocp_not_nodup :
    ¬ (analyze_xbar [0, 0, 10, 10, 10, 10] 2 none none).out_of_control_points.Nodup := by
  have hs : Nat.sqrt 2 = 1 := natSqrt_eval (by norm_num) (by norm_num)
  have h : (analyze_xbar [0, 0, 10, 10, 10, 10] 2 none none).out_of_control_points =
      [0, 1, 2, 2] := by
    norm_num [analyze_xbar, apply_western_electric_rules, ruleOneViolations,
      ruleTwoViolations, ruleThreeViolations, ruleFourViolations, subgroupMeans,
      subgroupRanges, subgroups, grand_mean, avg_range, sigma_estimate, xbar_ucl, xbar_lcl,
      d2Table, ratSqrt, mean, npMax, npMin, std, sampleVar, hs, List.range_succ, List.enum,
      List.enumFrom_cons, List.filterMap_cons, List.countP_cons, List.all_cons,
      List.sum_cons]
  rw [h]
  simp [List.nodup_cons]

/-- C3 (code divergence): the source performs no validation of
`subgroup_size` at all, so with subgroup_size = 1 both analyze_xbar and
analyze_r_chart return a normal, fully populated result object instead of
raising the InvalidParameter error the spec demands.  On data [1, 2] with
subgroup size 1, analyze_xbar returns center_line = ucl = lcl = 3/2 with
both (singleton-subgroup) means flagged by Rule 1, and analyze_r_chart
returns center_line = ucl = lcl = 0 with nothing flagged. -/
theorem subgroup_size_one_returns_result :
    (analyze_xbar [1, 2] 1 none none).center_line = 3 / 2 ∧
    (analyze_xbar [1, 2] 1 none none).ucl = 3 / 2 ∧
    (analyze_xbar [1, 2] 1 none none).lcl = 3 / 2 ∧
    (analyze_xbar [1, 2] 1 none none).out_of_control_points = [0, 1] ∧
    (analyze_r_chart [1, 2] 1).center_line = 0 ∧
    (analyze_r_chart [1, 2] 1).ucl = 0 ∧
    (analyze_r_chart [1, 2] 1).lcl = 0 ∧
    (analyze_r_chart [1, 2] 1).out_of_control_points = [] := by
  have hs : Nat.sqrt 1 = 1 := natSqrt_eval (by norm_num) (by norm_num)
  refine ⟨?_, ?_, ?_, ?_, ?_, ?_, ?_, ?_⟩ <;>
    norm_num [analyze_xbar, analyze_r_chart, apply_western_electric_rules,
      ruleOneViolations, ruleTwoViolations, ruleThreeViolations, ruleFourViolations,
      subgroupMeans, subgroupRanges, subgroups, grand_mean, avg_range, sigma_estimate,
      xbar_ucl, xbar_lcl, d2Table, d3Table, d4Table, ratSqrt, mean, npMax, npMin, hs,
      List.range_succ, List.enum, List.enumFrom_cons, List.filterMap_cons,
      List.countP_cons, List.all_cons, List.sum_cons]

/-- C2 (code divergence): on the constant sequence [5, 5, 5, 5] the sample
standard deviation is 0, yet analyze_xbar with both specification limits
supplied still returns a normal result whose process_capability is
populated — `_calculate_capability` divides by sigma unconditionally (in
Python this silently produces infinite indices) and no DegenerateDistribution
error is raised; no such error type exists anywhere in the codebase. -/
theorem capability_sigma_zero_returns_result :
    std [5, 5, 5, 5] = 0 ∧
    (analyze_xbar [5, 5, 5, 5] 2 (some 6) (some 4)).process_capability =
      some (calculate_capability [5, 5, 5, 5] 6 4) := by
  constructor
  · norm_num [std, sampleVar, mean, ratSqrt, List.sum_cons]
  · rfl

theorem subgroupRanges_nonneg {data : List ℚ} {m : ℕ} :
    ∀ r ∈ subgroupRanges data m, 0 ≤ r := by
  intro r hr
  rcases List.mem_map.mp hr with ⟨sg, hsg, rfl⟩
  rcases Nat.eq_zero_or_pos m with hm | hm
  · have hlen := length_of_mem_subgroups hsg
    rw [hm] at hlen
    have : sg = [] := List.length_eq_zero.mp hlen
    simp [this, npMax, npMin]
  · have := npMin_le_npMax (subgroups_nonempty_of_mem hm hsg)
    linarith

theorem sums_nonneg_of_forall₂ {defects sample_sizes : List ℚ}
    (h : List.Forall₂ (fun d s => 0 ≤ d ∧ d ≤ s ∧ 0 < s) defects sample_sizes) :
    0 ≤ defects.sum ∧ 0 ≤ sample_sizes.sum := by
  induction h with
  | nil => simp
  | cons hr _ ih =>
    simp only [List.sum_cons]
    exact ⟨add_nonneg hr.1 ih.1, add_nonneg hr.2.2.le ih.2⟩

/-- C4: each chart's result satisfies lcl ≤ center_line ≤ ucl — for X-bar
and R given at least one full subgroup, and for the p-chart given
elementwise valid inputs (0 ≤ defects i ≤ sample_sizes i with positive
sample sizes, expressed by Forall₂, which also forces equal lengths). -/
theorem spc_limits_order (data : List ℚ) (m : ℕ) (usl lsl : Option ℚ)
    (defects sample_sizes : List ℚ) :
    (0 < data.length / m →
      (analyze_xbar data m usl lsl).lcl ≤ (analyze_xbar data m usl lsl).center_line ∧
        (analyze_xbar data m usl lsl).center_line ≤ (analyze_xbar data m usl lsl).ucl) ∧
    (0 < data.length / m →
      (analyze_r_chart data m).lcl ≤ (analyze_r_chart data m).center_line ∧
        (analyze_r_chart data m).center_line ≤ (analyze_r_chart data m).ucl) ∧
    (List.Forall₂ (fun d s => 0 ≤ d ∧ d ≤ s ∧ 0 < s) defects sample_sizes →
      (analyze_p_chart defects sample_sizes).lcl ≤
          (analyze_p_chart defects sample_sizes).center_line ∧
        (analyze_p_chart defects sample_sizes).center_line ≤
          (analyze_p_chart defects sample_sizes).ucl) := by
  refine ⟨fun _ => ?_, fun _ => ?_, fun hf => ?_⟩
  · have ht : 0 ≤ 3 * (sigma_estimate data m / ratSqrt m) := by
      have h1 : 0 ≤ sigma_estimate data m :=
        div_nonneg (mean_nonneg subgroupRanges_nonneg) (d2Table_pos m).le
      have h2 : 0 ≤ ratSqrt (m : ℚ) := ratSqrt_nonneg _
      positivity
    exact ⟨sub_le_self _ ht, le_add_of_nonneg_right ht⟩
  · have h0 : 0 ≤ mean (subgroupRanges data m) := mean_nonneg subgroupRanges_nonneg
    exact ⟨mul_le_of_le_one_left h0 (d3Table_le_one m),
      le_mul_of_one_le_left h0 (one_le_d4Table m)⟩
  · have hsums := sums_nonneg_of_forall₂ hf
    have hp : 0 ≤ defects.sum / sample_sizes.sum := div_nonneg hsums.1 hsums.2
    have ht : 0 ≤ 3 * ratSqrt (defects.sum / sample_sizes.sum *
        (1 - defects.sum / sample_sizes.sum) / mean sample_sizes) :=
      mul_nonneg (by norm_num) (ratSqrt_nonneg _)
    exact ⟨max_le hp (sub_le_self _ ht), le_add_of_nonneg_right ht⟩

/-- C4 witness: concrete instantiation for all three charts. -/
theorem spc_limits_order_witness :
    ((analyze_xbar [1, 2] 2 none none).lcl ≤ (analyze_xbar [1, 2] 2 none none).center_line ∧
      (analyze_xbar [1, 2] 2 none none).center_line ≤ (analyze_xbar [1, 2] 2 none none).ucl) ∧
    ((analyze_r_chart [1, 2] 2).lcl ≤ (analyze_r_chart [1, 2] 2).center_line ∧
      (analyze_r_chart [1, 2] 2).center_line ≤ (analyze_r_chart [1, 2] 2).ucl) ∧
    ((analyze_p_chart [0] [10]).lcl ≤ (analyze_p_chart [0] [10]).center_line ∧
      (analyze_p_chart [0] [10]).center_line ≤ (analyze_p_chart [0] [10]).ucl) :=
  ⟨(spc_limits_order [1, 2] 2 none none [0] [10]).1 (by norm_num),
    (spc_limits_order [1, 2] 2 none none [0] [10]).2.1 (by norm_num),
    (spc_limits_order [1, 2] 2 none none [0] [10]).2.2
      (List.Forall₂.cons (by norm_num) List.Forall₂.nil)⟩

theorem analyze_cusum_length_c_plus (data : List ℚ) (target : Option ℚ) (k h : ℚ) :
    (analyze_cusum data target k h).c_plus.length = data.length := by
  simp [analyze_cusum, List.length_tail, List.length_scanl]

theorem analyze_cusum_length_c_minus (data : List ℚ) (target : Option ℚ) (k h : ℚ) :
    (analyze_cusum data target k h).c_minus.length = data.length := by
  simp [analyze_cusum, List.length_tail, List.length_scanl]

/-- C5: every index of out_of_control_points is a valid 0-based index into
the plotted sequence — subgroup means for X-bar, subgroup ranges for R,
per-sample proportions for p (requiring the documented equal-length
contract), and per-measurement CUSUM statistics. -/
theorem spc_oocp_indices_in_range (data : List ℚ) (m : ℕ) (usl lsl : Option ℚ)
    (defects sample_sizes : List ℚ) (target : Option ℚ) (k h : ℚ) (i : ℕ) :
    (i ∈ (analyze_xbar data m usl lsl).out_of_control_points →
      i < (subgroupMeans data m).length) ∧
    (i ∈ (analyze_r_chart data m).out_of_control_points →
      i < (subgroupRanges data m).length) ∧
    (defects.length = sample_sizes.length →
      i ∈ (analyze_p_chart defects sample_sizes).out_of_control_points →
        i < defects.length) ∧
    (i ∈ (analyze_cusum data target k h).out_of_control_points → i < data.length) := by
  refine ⟨fun hmem => ?_, fun hmem => ?_, fun hlen hmem => ?_, fun hmem => ?_⟩
  · have hmem' : i ∈ (apply_western_electric_rules (subgroupMeans data m)
        (grand_mean data m) (xbar_ucl data m) (xbar_lcl data m)).map Prod.fst := hmem
    rcases mem_apply_western_electric_rules.mp hmem' with h1 | h2 | h3 | h4
    · rcases h1 with ⟨v, hget, _⟩
      rcases List.getElem?_eq_some.mp hget with ⟨hlt, _⟩
      exact hlt
    · rcases h2 with ⟨j, hj, rfl, _⟩
      omega
    · rcases h3 with ⟨j, hj, rfl, _⟩
      omega
    · rcases h4 with ⟨j, hj, rfl, _⟩
      omega
  · have hmem' : i ∈ (subgroupRanges data m).enum.filterMap
        (fun p => if p.2 > d4Table m * mean (subgroupRanges data m) ∨
          p.2 < d3Table m * mean (subgroupRanges data m) then some p.1 else none) := hmem
    rcases mem_enum_filterMap_idx.mp hmem' with ⟨v, hget, _⟩
    rcases List.getElem?_eq_some.mp hget with ⟨hlt, _⟩
    exact hlt
  · have hmem' : i ∈ (List.zipWith (fun d s => d / s) defects sample_sizes).enum.filterMap
        (fun p => if p.2 > defects.sum / sample_sizes.sum +
              3 * ratSqrt (defects.sum / sample_sizes.sum *
                (1 - defects.sum / sample_sizes.sum) / mean sample_sizes) ∨
            p.2 < max 0 (defects.sum / sample_sizes.sum -
              3 * ratSqrt (defects.sum / sample_sizes.sum *
                (1 - defects.sum / sample_sizes.sum) / mean sample_sizes))
          then some p.1 else none) := hmem
    rcases mem_enum_filterMap_idx.mp hmem' with ⟨v, hget, _⟩
    rcases List.getElem?_eq_some.mp hget with ⟨hlt, _⟩
    rw [List.length_zipWith, hlen, min_self] at hlt
    omega
  · have hmem' : i ∈ ((analyze_cusum data target k h).c_plus.zip
        (analyze_cusum data target k h).c_minus).enum.filterMap
        (fun p => if p.2.1 > h * std data ∨ p.2.2 > h * std data
          then some p.1 else none) := hmem
    rcases mem_enum_filterMap_idx.mp hmem' with ⟨v, hget, _⟩
    rcases List.getElem?_eq_some.mp hget with ⟨hlt, _⟩
    rw [List.length_zip, analyze_cusum_length_c_plus, analyze_cusum_length_c_minus,
      min_self] at hlt
    exact hlt

/-- C5 witness: concrete flagged indices for all four charts. -/
theorem spc_oocp_indices_in_range_witness :
    0 < (subgroupMeans [0, 0, 10, 10, 10, 10] 2).length ∧
    0 < (subgroupRanges [0, 10, 0, 0, 0, 0, 0, 0, 0, 0] 2).length ∧
    2 < ([0, 0, 9] : List ℚ).length ∧
    4 < ([0, 0, 0, 0, 100] : List ℚ).length := by
  have hs2 : Nat.sqrt 2 = 1 := natSqrt_eval (by norm_num) (by norm_num)
  have hs21 : Nat.sqrt 21 = 4 := natSqrt_eval (by norm_num) (by norm_num)
  have hs1000 : Nat.sqrt 1000 = 31 := natSqrt_eval (by norm_num) (by norm_num)
  refine ⟨(spc_oocp_indices_in_range [0, 0, 10, 10, 10, 10] 2 none none [] [] none 0 0 0).1 ?_,
    (spc_oocp_indices_in_range [0, 10, 0, 0, 0, 0, 0, 0, 0, 0] 2 none none [] [] none 0 0 0).2.1 ?_,
    (spc_oocp_indices_in_range [] 1 none none [0, 0, 9] [10, 10, 10] none 0 0 2).2.2.1 rfl ?_,
    (spc_oocp_indices_in_range [0, 0, 0, 0, 100] 1 none none [] [] (some 0) 0 0 4).2.2.2 ?_⟩
  · norm_num [analyze_xbar, apply_western_electric_rules, ruleOneViolations,
      ruleTwoViolations, ruleThreeViolations, ruleFourViolations, subgroupMeans,
      subgroupRanges, subgroups, grand_mean, avg_range, sigma_estimate, xbar_ucl, xbar_lcl,
      d2Table, ratSqrt, mean, npMax, npMin, hs2, List.range_succ, List.enum,
      List.enumFrom_cons, List.filterMap_cons, List.countP_cons, List.all_cons,
      List.sum_cons]
  · norm_num [analyze_r_chart, subgroupRanges, subgroups, d3Table, d4Table, mean, npMax,
      npMin, List.range_succ, List.enum, List.enumFrom_cons, List.filterMap_cons,
      List.sum_cons]
  · have ht : Int.toNat 21 = 21 := rfl
    norm_num [analyze_p_chart, mean, ratSqrt, hs21, hs1000, ht, List.enum,
      List.enumFrom_cons, List.filterMap_cons, List.sum_cons]
  · norm_num [analyze_cusum, std, sampleVar, mean, ratSqrt, List.scanl_cons, List.scanl_nil,
      List.enum, List.enumFrom_cons, List.filterMap_cons, List.sum_cons, List.zip_cons_cons]

theorem getD_mem_drop_take {data : List ℚ} {a b j : ℕ} (h1 : a ≤ j) (h2 : j < a + b)
    (h3 : j < data.length) : data.getD j 0 ∈ (data.drop a).take b := by
  rw [List.mem_iff_getElem]
  have hlen : j - a < ((data.drop a).take b).length := by
    rw [List.length_take, List.length_drop]
    omega
  refine ⟨j - a, hlen, ?_⟩
  rw [List.getElem_take, List.getElem_drop, List.getD_eq_getElem data 0 h3]
  congr 1
  omega

theorem mem_drop_take {data : List ℚ} {a b : ℕ} {x : ℚ}
    (hx : x ∈ (data.drop a).take b) :
    ∃ j, a ≤ j ∧ j < a + b ∧ j < data.length ∧ data.getD j 0 = x := by
  rw [List.mem_iff_getElem] at hx
  rcases hx with ⟨n, hn, hval⟩
  rw [List.length_take, List.length_drop, lt_min_iff] at hn
  refine ⟨a + n, by omega, by omega, by omega, ?_⟩
  rw [List.getD_eq_getElem data 0 (by omega), ← hval, List.getElem_take,
    List.getElem_drop]

/-- C6: on any plotted sequence of length 9 whose points at indices 0–7 are
strictly above the center line and whose point at index 8 is strictly
below it, Rule 4 flags exactly index 7 (in particular, not index 8). -/
theorem ruleFour_nine_points_flags_exactly_seven (data : List ℚ) (center_line : ℚ) (i : ℕ)
    (hlen : data.length = 9)
    (habove : ∀ j, j < 8 → center_line < data.getD j 0)
    (hbelow : data.getD 8 0 < center_line) :
    i ∈ (ruleFourViolations data center_line).map Prod.fst ↔ i = 7 := by
  rw [mem_map_fst_ruleFour]
  unfold ruleFourAt
  rw [hlen]
  constructor
  · rintro ⟨j, hj, rfl, hcond⟩
    interval_cases j
    · rfl
    · exfalso
      rcases hcond with hab | hbe
      · rw [List.all_eq_true] at hab
        have hmem : data.getD 8 0 ∈ (data.drop 1).take 8 :=
          getD_mem_drop_take (by omega) (by omega) (by omega)
        have h8 := hab _ hmem
        rw [decide_eq_true_eq] at h8
        linarith
      · rw [List.all_eq_true] at hbe
        have hmem : data.getD 1 0 ∈ (data.drop 1).take 8 :=
          getD_mem_drop_take (by omega) (by omega) (by omega)
        have h1 := hbe _ hmem
        rw [decide_eq_true_eq] at h1
        have h1' := habove 1 (by omega)
        linarith
  · rintro rfl
    refine ⟨0, by omega, rfl, Or.inl ?_⟩
    rw [List.all_eq_true]
    intro x hx
    rw [decide_eq_true_eq]
    rcases mem_drop_take hx with ⟨j, _, hjb, _, rfl⟩
    exact habove j (by omega)

/-- C6 witness: a concrete length-9 sequence with 8 points above 0 followed
by one below. -/
theorem ruleFour_nine_points_flags_exactly_seven_witness :
    7 ∈ (ruleFourViolations [1, 1, 1, 1, 1, 1, 1, 1, -1] 0).map Prod.fst ∧
    8 ∉ (ruleFourViolations [1, 1, 1, 1, 1, 1, 1, 1, -1] 0).map Prod.fst := by
  have habove : ∀ j, j < 8 → (0 : ℚ) < ([1, 1, 1, 1, 1, 1, 1, 1, -1] : List ℚ).getD j 0 := by
    intro j hj
    interval_cases j <;> norm_num
  have hbelow : ([1, 1, 1, 1, 1, 1, 1, 1, -1] : List ℚ).getD 8 0 < 0 := by norm_num
  constructor
  · exact (ruleFour_nine_points_flags_exactly_seven [1, 1, 1, 1, 1, 1, 1, 1, -1] 0 7
      rfl habove hbelow).mpr rfl
  · intro hm
    have h8 := (ruleFour_nine_points_flags_exactly_seven [1, 1, 1, 1, 1, 1, 1, 1, -1] 0 8
      rfl habove hbelow).mp hm
    omega

/-- C7: on a constant sequence of length at least subgroup_size (with a
positive subgroup size), analyze_xbar returns center_line = ucl = lcl = c
(the range-based sigma estimate is 0) and Rule 1 flags no point. -/
theorem xbar_constant_sequence (c : ℚ) (m : ℕ) (data : List ℚ) (hm : 0 < m)
    (hlen : m ≤ data.length) (hconst : ∀ x ∈ data, x = c) :
    (analyze_xbar data m none none).center_line = c ∧
    (analyze_xbar data m none none).ucl = c ∧
    (analyze_xbar data m none none).lcl = c ∧
    ruleOneViolations (subgroupMeans data m) (analyze_xbar data m none none).ucl
      (analyze_xbar data m none none).lcl = [] := by
  have hq : 1 ≤ data.length / m := (Nat.le_div_iff_mul_le hm).mpr (by omega)
  have hsg_ne : subgroups data m ≠ [] := by
    have : (subgroups data m).length = data.length / m := by
      simp [subgroups]
    intro hnil
    rw [hnil] at this
    simp at this
    omega
  have hmeans_const : ∀ y ∈ subgroupMeans data m, y = c := by
    intro y hy
    rcases List.mem_map.mp hy with ⟨sg, hsg, rfl⟩
    exact mean_const (subgroups_nonempty_of_mem hm hsg)
      (fun x hx => hconst x (mem_of_mem_subgroups hsg hx))
  have hmeans_ne : subgroupMeans data m ≠ [] := by
    simpa [subgroupMeans, List.map_eq_nil_iff] using hsg_ne
  have hgm : grand_mean data m = c := mean_const hmeans_ne hmeans_const
  have hranges0 : ∀ r ∈ subgroupRanges data m, r = 0 := by
    intro r hr
    rcases List.mem_map.mp hr with ⟨sg, hsg, rfl⟩
    have hne := subgroups_nonempty_of_mem hm hsg
    have hc : ∀ x ∈ sg, x = c := fun x hx => hconst x (mem_of_mem_subgroups hsg hx)
    rw [npMax_const hne hc, npMin_const hne hc, sub_self]
  have hranges_ne : subgroupRanges data m ≠ [] := by
    simpa [subgroupRanges, List.map_eq_nil_iff] using hsg_ne
  have har : avg_range data m = 0 := mean_const hranges_ne hranges0
  have hsig : sigma_estimate data m = 0 := by rw [sigma_estimate, har, zero_div]
  have hucl : xbar_ucl data m = c := by
    rw [xbar_ucl, hgm, hsig, zero_div, mul_zero, add_zero]
  have hlcl : xbar_lcl data m = c := by
    rw [xbar_lcl, hgm, hsig, zero_div, mul_zero, sub_zero]
  refine ⟨hgm, hucl, hlcl, ?_⟩
  rw [ruleOneViolations, List.filterMap_eq_nil_iff]
  rintro ⟨j, v⟩ hp
  have hv : v ∈ subgroupMeans data m := by
    have h2 := List.mk_mem_enum_iff_getElem?.mp hp
    rcases List.getElem?_eq_some.mp h2 with ⟨hlt, heq⟩
    rw [← heq]
    exact List.getElem_mem hlt
  have hvc := hmeans_const v hv
  have hu' : (analyze_xbar data m none none).ucl = xbar_ucl data m := rfl
  have hl' : (analyze_xbar data m none none).lcl = xbar_lcl data m := rfl
  rw [if_neg]
  rw [hu', hl', hucl, hlcl, hvc]
  simp

/-- C7 witness: the constant sequence [5, 5, 5, 5] with subgroup size 2. -/
theorem xbar_constant_sequence_witness :
    (analyze_xbar [5, 5, 5, 5] 2 none none).center_line = 5 ∧
    (analyze_xbar [5, 5, 5, 5] 2 none none).ucl = 5 ∧
    (analyze_xbar [5, 5, 5, 5] 2 none none).lcl = 5 ∧
    ruleOneViolations (subgroupMeans [5, 5, 5, 5] 2)
      (analyze_xbar [5, 5, 5, 5] 2 none none).ucl
      (analyze_xbar [5, 5, 5, 5] 2 none none).lcl = [] :=
  xbar_constant_sequence 5 2 [5, 5, 5, 5] (by norm_num) (by norm_num)
    (by intro x hx; simp at hx; exact hx)

theorem scanl_getD_zero (f : ℚ → ℚ → ℚ) (b : ℚ) (l : List ℚ) :
    (List.scanl f b l).getD 0 0 = b := by
  cases l <;> simp [List.scanl_nil, List.scanl_cons]

theorem scanl_getD_succ (f : ℚ → ℚ → ℚ) :
    ∀ (l : List ℚ) (b : ℚ) (i : ℕ), i < l.length →
      (List.scanl f b l).getD (i + 1) 0 = f ((List.scanl f b l).getD i 0) (l.getD i 0) := by
  intro l
  induction l with
  | nil =>
    intro b i hi
    simp at hi
  | cons a t ih =>
    intro b i hi
    rw [List.scanl_cons, List.singleton_append]
    cases i with
    | zero =>
      simp [List.getD_cons_succ, List.getD_cons_zero, scanl_getD_zero]
    | succ n =>
      have hn : n < t.length := by simpa using hi
      simp only [List.getD_cons_succ]
      exact ih (f b a) n hn

theorem scanl_tail_getD (f : ℚ → ℚ → ℚ) (b : ℚ) (l : List ℚ) (i : ℕ) :
    (List.scanl f b l).tail.getD i 0 = (List.scanl f b l).getD (i + 1) 0 := by
  cases l with
  | nil => simp [List.scanl_nil]
  | cons a t =>
    rw [List.scanl_cons, List.singleton_append]
    simp [List.getD_cons_succ]

theorem mem_scanl_nonneg (f : ℚ → ℚ → ℚ) (hf : ∀ a v, 0 ≤ f a v) :
    ∀ (l : List ℚ) (b : ℚ), 0 ≤ b → ∀ x ∈ List.scanl f b l, 0 ≤ x := by
  intro l
  induction l with
  | nil =>
    intro b hb x hx
    rw [List.scanl_nil, List.mem_singleton] at hx
    exact hx ▸ hb
  | cons a t ih =>
    intro b hb x hx
    rw [List.scanl_cons, List.singleton_append] at hx
    rcases List.mem_cons.mp hx with rfl | hx'
    · exact hb
    · exact ih (f b a) (hf b a) x hx'

/-- C8: analyze_cusum realises exactly the claimed recurrences — both
running sums start from an implicit previous value 0, each step is
max(0, prev ± (data i - target) - k·sigma) with sigma the sample standard
deviation of the data, and out_of_control_points are exactly the indices
whose c_plus or c_minus strictly exceeds h·sigma. -/
theorem cusum_recurrence (data : List ℚ) (target k h : ℚ) :
    ((analyze_cusum data (some target) k h).c_plus.length = data.length ∧
      (analyze_cusum data (some target) k h).c_minus.length = data.length) ∧
    (∀ i, i < data.length →
      (analyze_cusum data (some target) k h).c_plus.getD i 0 =
        max 0 ((if i = 0 then 0
            else (analyze_cusum data (some target) k h).c_plus.getD (i - 1) 0) +
          (data.getD i 0 - target) - k * std data) ∧
      (analyze_cusum data (some target) k h).c_minus.getD i 0 =
        max 0 ((if i = 0 then 0
            else (analyze_cusum data (some target) k h).c_minus.getD (i - 1) 0) -
          (data.getD i 0 - target) - k * std data)) ∧
    (∀ i, i ∈ (analyze_cusum data (some target) k h).out_of_control_points ↔
      i < data.length ∧
        ((analyze_cusum data (some target) k h).c_plus.getD i 0 > h * std data ∨
          (analyze_cusum data (some target) k h).c_minus.getD i 0 > h * std data)) := by
  have hplus : (analyze_cusum data (some target) k h).c_plus =
      (List.scanl (fun acc v => max 0 (acc + (v - target) - k * std data)) 0 data).tail := rfl
  have hminus : (analyze_cusum data (some target) k h).c_minus =
      (List.scanl (fun acc v => max 0 (acc - (v - target) - k * std data)) 0 data).tail := rfl
  refine ⟨⟨analyze_cusum_length_c_plus .., analyze_cusum_length_c_minus ..⟩, ?_, ?_⟩
  · intro i hi
    constructor
    · rw [hplus]
      simp only [scanl_tail_getD]
      cases i with
      | zero =>
        rw [scanl_getD_succ _ data 0 0 hi, scanl_getD_zero, if_pos rfl]
      | succ n =>
        rw [scanl_getD_succ _ data 0 (n + 1) hi, if_neg (Nat.succ_ne_zero n),
          Nat.succ_sub_one]
    · rw [hminus]
      simp only [scanl_tail_getD]
      cases i with
      | zero =>
        rw [scanl_getD_succ _ data 0 0 hi, scanl_getD_zero, if_pos rfl]
      | succ n =>
        rw [scanl_getD_succ _ data 0 (n + 1) hi, if_neg (Nat.succ_ne_zero n),
          Nat.succ_sub_one]
  · intro i
    have hout : (analyze_cusum data (some target) k h).out_of_control_points =
        ((analyze_cusum data (some target) k h).c_plus.zip
          (analyze_cusum data (some target) k h).c_minus).enum.filterMap
          (fun p => if p.2.1 > h * std data ∨ p.2.2 > h * std data
            then some p.1 else none) := rfl
    rw [hout, mem_enum_filterMap_idx]
    constructor
    · rintro ⟨⟨cp, cm⟩, hget, hcond⟩
      rcases List.getElem?_zip_eq_some.mp hget with ⟨hcp, hcm⟩
      have hlt : i < data.length := by
        rcases List.getElem?_eq_some.mp hcp with ⟨hl, _⟩
        rw [analyze_cusum_length_c_plus] at hl
        exact hl
      have hcp' : (analyze_cusum data (some target) k h).c_plus.getD i 0 = cp := by
        rw [List.getD_eq_getElem?_getD, hcp]
        rfl
      have hcm' : (analyze_cusum data (some target) k h).c_minus.getD i 0 = cm := by
        rw [List.getD_eq_getElem?_getD, hcm]
        rfl
      refine ⟨hlt, ?_⟩
      rw [hcp', hcm']
      simpa using hcond
    · rintro ⟨hlt, hcond⟩
      have hlp : i < (analyze_cusum data (some target) k h).c_plus.length := by
        rw [analyze_cusum_length_c_plus]
        exact hlt
      have hlm : i < (analyze_cusum data (some target) k h).c_minus.length := by
        rw [analyze_cusum_length_c_minus]
        exact hlt
      refine ⟨((analyze_cusum data (some target) k h).c_plus.getD i 0,
        (analyze_cusum data (some target) k h).c_minus.getD i 0), ?_, by simpa using hcond⟩
      rw [List.getElem?_zip_eq_some]
      constructor
      · rw [List.getElem?_eq_getElem hlp, List.getD_eq_getElem _ 0 hlp]
      · rw [List.getElem?_eq_getElem hlm, List.getD_eq_getElem _ 0 hlm]

/-- C8 witness: the recurrence instantiated at data [1], target 0,
k = h = 0, index 0. -/
theorem cusum_recurrence_witness :
    (analyze_cusum [1] (some 0) 0 0).c_plus.getD 0 0 =
      max 0 ((if (0 : ℕ) = 0 then 0
          else (analyze_cusum [1] (some 0) 0 0).c_plus.getD (0 - 1) 0) +
        (([1] : List ℚ).getD 0 0 - 0) - 0 * std [1]) ∧
    (analyze_cusum [1] (some 0) 0 0).c_minus.getD 0 0 =
      max 0 ((if (0 : ℕ) = 0 then 0
          else (analyze_cusum [1] (some 0) 0 0).c_minus.getD (0 - 1) 0) -
        (([1] : List ℚ).getD 0 0 - 0) - 0 * std [1]) :=
  (cusum_recurrence [1] 0 0 0).2.1 0 (by norm_num)

/-- C10: the two CUSUM statistic sequences have exactly one entry per raw
measurement and every entry is nonnegative. -/
theorem cusum_lengths_and_nonneg (data : List ℚ) (target : Option ℚ) (k h : ℚ) :
    (analyze_cusum data target k h).c_plus.length = data.length ∧
    (analyze_cusum data target k h).c_minus.length = data.length ∧
    (∀ x ∈ (analyze_cusum data target k h).c_plus, 0 ≤ x) ∧
    (∀ x ∈ (analyze_cusum data target k h).c_minus, 0 ≤ x) := by
  refine ⟨analyze_cusum_length_c_plus .., analyze_cusum_length_c_minus .., ?_, ?_⟩
  · intro x hx
    have hx' : x ∈ (List.scanl
        (fun acc v => max 0 (acc + (v - target.getD (mean data)) - k * std data))
        0 data).tail := hx
    exact mem_scanl_nonneg _ (fun a v => le_max_left 0 _) data 0 le_rfl x
      (List.mem_of_mem_tail hx')
  · intro x hx
    have hx' : x ∈ (List.scanl
        (fun acc v => max 0 (acc - (v - target.getD (mean data)) - k * std data))
        0 data).tail := hx
    exact mem_scanl_nonneg _ (fun a v => le_max_left 0 _) data 0 le_rfl x
      (List.mem_of_mem_tail hx')

/-- C10 witness: on data [1] with target 0 and k = h = 0 the c_plus
sequence is [1]; its length matches and its element is nonnegative. -/
theorem cusum_lengths_and_nonneg_witness :
    (analyze_cusum [1] (some 0) 0 0).c_plus.length = ([1] : List ℚ).length ∧
    0 ≤ (1 : ℚ) :=
  ⟨(cusum_lengths_and_nonneg [1] (some 0) 0 0).1,
    (cusum_lengths_and_nonneg [1] (some 0) 0 0).2.2.1 1 (by
      norm_num [analyze_cusum, std, sampleVar, mean, ratSqrt, List.scanl_cons,
        List.scanl_nil, List.sum_cons])⟩

theorem subgroups_flatten (m : ℕ) (hm : 0 < m) :
    ∀ (blocks : List (List ℚ)), (∀ b ∈ blocks, b.length = m) →
      subgroups blocks.flatten m = blocks := by
  intro blocks
  induction blocks with
  | nil =>
    intro _
    simp [subgroups]
  | cons b bs ih =>
    intro hb
    have hbm : b.length = m := hb b (List.mem_cons_self b bs)
    have hbs : ∀ x ∈ bs, x.length = m := fun x hx => hb x (List.mem_cons_of_mem b hx)
    have hlen : (b :: bs).flatten.length = bs.flatten.length + m := by
      rw [List.flatten_cons, List.length_append, hbm]
      omega
    have hdiv : (b :: bs).flatten.length / m = bs.flatten.length / m + 1 := by
      rw [hlen, Nat.add_div_right _ hm]
    have hstep : ∀ i : ℕ,
        ((b :: bs).flatten.drop (Nat.succ i * m)).take m =
          (bs.flatten.drop (i * m)).take m := by
      intro i
      rw [List.flatten_cons]
      rw [show Nat.succ i * m = m + i * m by rw [Nat.succ_mul, Nat.add_comm]]
      rw [← List.drop_drop, List.drop_left' hbm]
    rw [subgroups, hdiv, List.range_succ_eq_map, List.map_cons, List.map_map]
    congr 1
    · rw [Nat.zero_mul, List.drop_zero, List.flatten_cons, List.take_left' hbm]
    · have hcg : List.map ((fun i => ((b :: bs).flatten.drop (i * m)).take m) ∘ Nat.succ)
          (List.range (bs.flatten.length / m)) =
            List.map (fun i => (bs.flatten.drop (i * m)).take m)
              (List.range (bs.flatten.length / m)) :=
        List.map_congr_left (fun a _ => hstep a)
      rw [hcg]
      exact ih hbs

/-- C9: permuting whole (length-m) subgroup blocks of the data leaves
center_line, ucl and lcl of analyze_xbar unchanged: the aggregate
statistics are order-invariant functions of the multiset of blocks. -/
theorem xbar_block_perm (m : ℕ) (hm : 0 < m) (blocks blocks' : List (List ℚ))
    (hb : ∀ b ∈ blocks, b.length = m) (hperm : blocks.Perm blocks')
    (usl lsl : Option ℚ) :
    (analyze_xbar blocks.flatten m usl lsl).center_line =
      (analyze_xbar blocks'.flatten m usl lsl).center_line ∧
    (analyze_xbar blocks.flatten m usl lsl).ucl =
      (analyze_xbar blocks'.flatten m usl lsl).ucl ∧
    (analyze_xbar blocks.flatten m usl lsl).lcl =
      (analyze_xbar blocks'.flatten m usl lsl).lcl := by
  have hb' : ∀ b ∈ blocks', b.length = m := fun b hbm => hb b (hperm.mem_iff.mpr hbm)
  have hsub : subgroups blocks.flatten m = blocks := subgroups_flatten m hm blocks hb
  have hsub' : subgroups blocks'.flatten m = blocks' := subgroups_flatten m hm blocks' hb'
  have hgm : grand_mean blocks.flatten m = grand_mean blocks'.flatten m := by
    rw [grand_mean, grand_mean, subgroupMeans, subgroupMeans, hsub, hsub']
    exact mean_perm (hperm.map mean)
  have har : avg_range blocks.flatten m = avg_range blocks'.flatten m := by
    rw [avg_range, avg_range, subgroupRanges, subgroupRanges, hsub, hsub']
    exact mean_perm (hperm.map _)
  have hsig : sigma_estimate blocks.flatten m = sigma_estimate blocks'.flatten m := by
    rw [sigma_estimate, sigma_estimate, har]
  refine ⟨hgm, ?_, ?_⟩
  · show xbar_ucl blocks.flatten m = xbar_ucl blocks'.flatten m
    rw [xbar_ucl, xbar_ucl, hgm, hsig]
  · show xbar_lcl blocks.flatten m = xbar_lcl blocks'.flatten m
    rw [xbar_lcl, xbar_lcl, hgm, hsig]

/-- C9 witness: swapping the two subgroups [1, 2] and [5, 9]. -/
theorem xbar_block_perm_witness :
    (analyze_xbar (List.flatten [[1, 2], [5, 9]]) 2 none none).center_line =
      (analyze_xbar (List.flatten [[5, 9], [1, 2]]) 2 none none).center_line ∧
    (analyze_xbar (List.flatten [[1, 2], [5, 9]]) 2 none none).ucl =
      (analyze_xbar (List.flatten [[5, 9], [1, 2]]) 2 none none).ucl ∧
    (analyze_xbar (List.flatten [[1, 2], [5, 9]]) 2 none none).lcl =
      (analyze_xbar (List.flatten [[5, 9], [1, 2]]) 2 none none).lcl :=
  xbar_block_perm 2 (by norm_num) [[1, 2], [5, 9]] [[5, 9], [1, 2]]
    (by
      intro b hbm
      rcases List.mem_cons.mp hbm with rfl | h2
      · rfl
      · rcases List.mem_cons.mp h2 with rfl | h3
        · rfl
        · simp at h3)
    (List.Perm.swap [5, 9] [1, 2] []) none none

end SPC
